import Mathlib

/-!
Shallow embedding of the charter-party clause-extraction pipeline
(`charter_parser`): the loader's strikethrough decision, the section
segmenter, the clause enumerator with its bounded retry loop, the clause
extractor's failure handling, and the final assembler.  External
collaborators (pdf geometry, the text oracle) are parameters; machine
integers are `Nat`/`Int`; Python dicts keyed by strings are association
lists with Python's insert-or-overwrite semantics.
-/

namespace CharterParser

/-! ## Python scalar values and `str` on integers -/

/-- A JSON scalar as Python sees it: the enumeration oracle's response is a
list of such values, and validation must reject the non-integers. -/
inductive PyVal where
  | int (n : Int)
  | str (s : String)
deriving DecidableEq, Repr

/-- Decimal digits of `n`, least significant first, by structural recursion on
a fuel argument (`fuel ≥ n` is enough, see `natDigitsRev_foldr`). -/
def natDigitsRev (fuel : Nat) (n : Nat) : List Nat :=
  match fuel with
  | 0 => []
  | fuel + 1 => if n = 0 then [] else n % 10 :: natDigitsRev fuel (n / 10)

/-- Model of Python `str` on a natural number: most-significant-first decimal
digits, rendered with `Nat.digitChar`. -/
def pyStrNat (n : Nat) : String :=
  if n = 0 then "0"
  else String.mk ((natDigitsRev n n).reverse.map Nat.digitChar)

/-- Model of Python `str` on an `int`: a leading minus sign for negatives. -/
def pyStr (i : Int) : String :=
  if i < 0 then "-" ++ pyStrNat i.natAbs else pyStrNat i.toNat

/-! ## Data model (`state.py`) -/

/-- `DocumentElement` from `state.py`: one unit of recognized document
content.  `label` is the upper-cased Docling label string. -/
structure DocumentElement where
  label : String
  text : String
  page : Nat
  level : Nat
  is_margin_note : Bool
deriving DecidableEq, Repr

/-- `SectionData` from `state.py`.  The TypedDict does no runtime checking:
`discover_sections` builds its dict literal with only `title`, `index`,
`elements` and `text`, and nothing in the pipeline ever sets the remaining
declared keys.  A key that may be absent from the runtime dict is an
`Option` here (`none` = missing key, so reading it raises `KeyError`).
The source's section id stem field is a reserved word in this language and
is named `pfx` here. -/
structure SectionData where
  title : String
  pfx : Option String := none
  index : Nat
  elements : List DocumentElement := []
  text : String := ""
  page_start : Option Nat := none
  page_end : Option Nat := none
deriving DecidableEq, Repr

/-- One labelled sub-clause of the extraction oracle's JSON record. -/
structure SubClause where
  label : String
  text : String
deriving DecidableEq, Repr

/-- The JSON record the extraction oracle returns on success
(`{number, title, agreed_text, sub_clauses, status, references}`). -/
structure OracleClause where
  number : Int
  title : String
  agreed_text : String
  sub_clauses : List SubClause := []
  status : String := "unamended"
  references : List String := []
deriving DecidableEq, Repr

/-- A `RawClause`: the dict `_extract_single` returns.  The source's
`section` key is a reserved word here and is named `sect`; the constant
`confidence = 0.0` float key, identical on every path, is omitted. -/
structure RawClause where
  id : String
  number : Int
  title : String
  agreed_text : String
  sub_clauses : List SubClause
  status : String
  references : List String
  sect : String
  section_index : Int
  page_range : List Nat
  error : Option String
deriving DecidableEq, Repr

/-- The final externally visible clause record emitted by `assemble`. -/
structure Clause where
  id : String
  title : String
  text : String
deriving DecidableEq, Repr

/-! ## Strikethrough filter (`pipeline/loader.py`) -/

/-- The ASCII characters Python's default string whitespace covers. -/
def isPySpace (c : Char) : Bool :=
  c == ' ' || c == '\t' || c == '\n' || c == '\r' || c == '\x0b' || c == '\x0c'

/-- Python `text.strip()`: drop leading and trailing whitespace. -/
def pyStrip (s : String) : String :=
  String.mk (((s.toList.dropWhile isPySpace).reverse.dropWhile isPySpace).reverse)

/-- Python `text.split()`: split on whitespace runs, no empty pieces. -/
def pySplitWs (s : String) : List String :=
  (s.split Char.isWhitespace).filter (fun p => p ≠ "")

/-- `" ".join(text.split()).lower()` as in `_is_text_struck`. -/
def pyNormalize (s : String) : String :=
  (String.intercalate " " (pySplitWs s)).toLower

/-- The body of the `for fragment in fragments` loop of `_is_text_struck`:
`norm_frag = " ".join(fragment.split()).lower()`; fragments shorter than 5
normalized characters are skipped; a fragment occurring inside the
normalized text adds its normalized length to the running count. -/
def strike_fold_step (normalized : String) (acc : Nat) (fragment : String) : Nat :=
  if (pyNormalize fragment).length < 5 then acc
  else if (pyNormalize fragment).toList <:+: normalized.toList then
    acc + (pyNormalize fragment).length
  else acc

/-- `_is_text_struck` from `pipeline/loader.py`.  `struck_text` maps a page
number to that page's struck fragments (a Python set, modelled as a list —
the count below is order-independent).  More than half of the element's
normalized text must be covered by matching fragments; the float comparison
`matched_chars > len(normalized) * 0.5` is exact on these integers and
equals `2 * matched_chars > len`. -/
def is_text_struck (text : String) (page : Nat)
    (struck_text : List (Nat × List String)) : Bool :=
  if ((struck_text.lookup page).getD []).isEmpty then false
  else
    decide (2 * ((struck_text.lookup page).getD []).foldl
        (strike_fold_step (pyNormalize text)) 0
      > (pyNormalize text).length)

/-- One fragment's contribution to the spec's overlap quantity: its
normalized length when that length is at least 5 and the normalized fragment
is a substring of the normalized text, else 0. -/
def strike_fragment_overlap (normalized : String) (fragment : String) : Nat :=
  if 5 ≤ (pyNormalize fragment).length
      ∧ (pyNormalize fragment).toList <:+: normalized.toList then
    (pyNormalize fragment).length
  else 0

/-- The spec's decision quantity, stated independently of the loop above:
over all struck fragments with normalized length at least 5 that are
substrings of the element's normalized text, the total of their normalized
lengths. -/
def struck_overlap (fragments : List String) (normalized : String) : Nat :=
  (fragments.map (strike_fragment_overlap normalized)).sum

/-! ## Section segmenter (`pipeline/sectioner.py`) -/

/-- `_extract_leading_number`: match `^\s*(\d+)\s*\.` (whitespace modelled by
`isPySpace`) and return the integer,
else `None`. -/
def extract_leading_number (s : String) : Option Nat :=
  let cs := s.toList.dropWhile isPySpace
  let ds := cs.takeWhile Char.isDigit
  let rest := (cs.dropWhile Char.isDigit).dropWhile isPySpace
  if ds ≠ [] ∧ rest.head? = some '.' then
    some (ds.foldl (fun a c => 10 * a + (c.toNat - 48)) 0)
  else none

/-- `_elements_to_text`: join the stripped texts of non-margin TEXT /
LIST_ITEM / SECTION_HEADER elements with blank lines, skipping empties. -/
def elements_to_text (elements : List DocumentElement) : String :=
  String.intercalate "\n\n" (elements.filterMap (fun el =>
    if el.is_margin_note then none
    else if el.label = "TEXT" ∨ el.label = "LIST_ITEM" ∨ el.label = "SECTION_HEADER" then
      let text := pyStrip el.text
      if text ≠ "" then some text else none
    else none))

/-- The index sequence of `range(before_idx, stop, -1)`: `before_idx` down to
`stop + 1`. -/
def downRange (before_idx stop : Nat) : List Nat :=
  (List.range (before_idx - stop)).map (fun k => before_idx - k)

/-- Whether one element qualifies as a section title inside
`_find_title_header`: a non-margin SECTION_HEADER with no leading number and
more than 5 characters of text. -/
def qualifies_title (el : DocumentElement) : Bool :=
  !el.is_margin_note && el.label == "SECTION_HEADER"
    && (extract_leading_number el.text).isNone && decide (el.text.length > 5)

/-- `_find_title_header`: scan backwards from `before_idx` (never reaching
`after_idx`, never more than 10 elements) for a qualifying title header;
return its stripped text and position. -/
def find_title_header (elements : List DocumentElement)
    (before_idx after_idx : Nat) : Option (String × Nat) :=
  (downRange before_idx (max after_idx (before_idx - 10))).findSome? (fun i =>
    match elements[i]? with
    | some el => if qualifies_title el then some (pyStrip el.text, i) else none
    | none => none)

/-- The `(element position, leading number)` pairs of non-margin numbered
SECTION_HEADER elements, in document order. -/
def numbered_headers (elements : List DocumentElement) : List (Nat × Nat) :=
  elements.enum.filterMap (fun p =>
    if p.2.label = "SECTION_HEADER" ∧ p.2.is_margin_note = false then
      (extract_leading_number p.2.text).map (fun num => (p.1, num))
    else none)

/-- The restart test of `discover_sections`: the pair is skipped when
`curr_num > 2 or prev_num <= curr_num`, so a restart candidate needs
`curr_num ≤ 2` and `prev_num` strictly greater. -/
def restart_candidate (prev_num curr_num : Nat) : Bool :=
  !(decide (curr_num > 2) || decide (prev_num ≤ curr_num))

/-- The consecutive pairs `(numbered_headers[j-1], numbered_headers[j])`
visited by `for j in range(1, len(numbered_headers))`. -/
def consecPairs {α : Type} : List α → List (α × α)
  | a :: b :: rest => (a, b) :: consecPairs (b :: rest)
  | _ => []

/-- The accepted section boundaries `(title, element index)`, in scan order:
a numbering restart whose backward title scan succeeds. -/
def section_boundaries (elements : List DocumentElement)
    (nh : List (Nat × Nat)) : List (String × Nat) :=
  (consecPairs nh).filterMap (fun pq =>
    if restart_candidate pq.1.2 pq.2.2 then
      find_title_header elements (pq.2.1 - 1) pq.1.1
    else none)

/-- Build one `SectionData` the way `discover_sections` does. -/
def mkSection (title : String) (index : Nat) (els : List DocumentElement) :
    SectionData :=
  { title := title, index := index, elements := els, text := elements_to_text els }

/-- The `for k, (title, start_idx) in enumerate(boundaries)` loop: each
boundary starts a section running to the next boundary or the end of the
document; `index` is the running section index. -/
def tail_sections (elements : List DocumentElement) :
    List (String × Nat) → Nat → List SectionData
  | [], _ => []
  | (title, start_idx) :: rest, index =>
      let end_idx := match rest with
        | (_, next_idx) :: _ => next_idx
        | [] => elements.length
      mkSection title index ((elements.drop start_idx).take (end_idx - start_idx))
        :: tail_sections elements rest (index + 1)

/-- `discover_sections` from `pipeline/sectioner.py`. -/
def discover_sections (elements : List DocumentElement) : List SectionData :=
  if elements.isEmpty then []
  else
    let boundaries := section_boundaries elements (numbered_headers elements)
    match boundaries with
    | [] => [mkSection "Main Clauses" 0 elements]
    | (_, first_boundary_idx) :: _ =>
        let body_elements := elements.take first_boundary_idx
        (if body_elements.isEmpty then []
         else [mkSection "Main Clauses" 0 body_elements])
          ++ tail_sections elements boundaries 1

/-- The element-index start of each section in order, as partial sums of the
section lengths, starting from `acc`. -/
def startsOf (acc : Nat) : List SectionData → List Nat
  | [] => []
  | s :: rest => acc :: startsOf (acc + s.elements.length) rest

/-! ## Clause enumerator (`pipeline/enumerator.py`) -/

/-- `MAX_ATTEMPTS` from `pipeline/enumerator.py`. -/
def MAX_ATTEMPTS : Nat := 3

def isInt : PyVal → Bool
  | .int _ => true
  | .str _ => false

/-- The integers of a value list, in order (total on the lists `validate`
accepts, where every value is an integer). -/
def asInts (vs : List PyVal) : List Int :=
  vs.filterMap (fun v => match v with | .int n => some n | .str _ => none)

/-- Python `sorted(set(numbers))` on integers: the distinct values in
increasing order. -/
def pySortedSet (l : List Int) : List Int :=
  List.insertionSort (fun a b => a ≤ b) l.dedup

/-- `_validate` from `pipeline/enumerator.py` (the source interpolates the
offending list into the message; the message heads are kept). -/
def validate (numbers : List PyVal) : Option String :=
  if numbers.isEmpty then some "Empty list"
  else if ¬ numbers.all isInt then some "Non-integer values"
  else if asInts numbers ≠ pySortedSet (asInts numbers) then
    some "Not monotonically increasing or has duplicates"
  else none

/-- One enumeration oracle call as the pipeline sees it: the parsed JSON
array, or the raised exception's message (`_call_llm` plus `json.loads`). -/
abbrev EnumResponse := Except String (List PyVal)

/-- The `clause_index` entry one section gets: its validated numbers, or `[]`
on an invalid or failed response. -/
def processResponse (r : EnumResponse) : List Int :=
  match r with
  | .error _ => []
  | .ok numbers => if validate numbers = none then asInts numbers else []

/-- Python `dict` assignment `d[k] = v`: overwrite in place, else append. -/
def pyDictInsert (k : String) (v : List Int) :
    List (String × List Int) → List (String × List Int)
  | [] => [(k, v)]
  | (k', v') :: rest =>
      if k' = k then (k, v) :: rest else (k', v') :: pyDictInsert k v rest

/-- The `clause_index` one `enumerate_clauses` pass builds: one dict write
per section, keyed by the section's `title`, in section order; `respond j`
is the oracle outcome for the `j`-th section of the pass. -/
def build_clause_index (respond : Nat → EnumResponse)
    (sections : List SectionData) : List (String × List Int) :=
  sections.enum.foldl
    (fun d js => pyDictInsert js.2.title (processResponse (respond js.1)) d) []

/-- The slice of the pipeline `state` dict that the enumeration stage writes
and the retry decision reads (the `errors` log it also appends to carries no
control flow and is not modelled). -/
structure EnumState where
  enumeration_attempts : Nat
  clause_index : List (String × List Int)
deriving DecidableEq, Repr

/-- `enumerate_clauses`: rebuild the whole index from scratch and bump the
attempt counter.  `oracle a j` is the oracle outcome for section `j` on
attempt `a`. -/
def enumerate_clauses (oracle : Nat → Nat → EnumResponse)
    (sections : List SectionData) (state : EnumState) : EnumState :=
  let attempts := state.enumeration_attempts + 1
  { enumeration_attempts := attempts
    clause_index := build_clause_index (oracle attempts) sections }

/-- `should_retry` from `pipeline/enumerator.py`: some section's list is
empty and the attempt counter is still below `MAX_ATTEMPTS`. -/
def should_retry (state : EnumState) : Bool :=
  (state.clause_index.any (fun kv => kv.2.isEmpty))
    && decide (state.enumeration_attempts < MAX_ATTEMPTS)

/-- The retry loop of `run_pipeline` in `main.py`:
repeat `enumerate_clauses` until `should_retry` is false. -/
def enumeration_loop (oracle : Nat → Nat → EnumResponse)
    (sections : List SectionData) (state : EnumState) : EnumState :=
  if should_retry (enumerate_clauses oracle sections state) then
    enumeration_loop oracle sections (enumerate_clauses oracle sections state)
  else enumerate_clauses oracle sections state
termination_by MAX_ATTEMPTS - state.enumeration_attempts
decreasing_by
  rename_i h
  simp only [should_retry, enumerate_clauses, MAX_ATTEMPTS, Bool.and_eq_true,
    decide_eq_true_eq] at h ⊢
  omega

/-! ## Clause extractor (`pipeline/extractor.py`) -/

/-- The `try` block of `_extract_single`: the awaited oracle call together
with JSON parsing (`result`, whose `.error` carries any raised exception's
message), then the enrichment writes — `data["id"]` reads
`section["prefix"]` and `data["page_range"]` reads `section["page_start"]`
and `section["page_end"]`, each raising `KeyError` when the key is absent. -/
def extract_single_try (result : Except String OracleClause) (sec : SectionData)
    (number : Int) : Except String RawClause :=
  match result with
  | .error exc => .error exc
  | .ok data =>
      match sec.pfx with
      | none => .error "KeyError: prefix"
      | some pfx =>
          match sec.page_start with
          | none => .error "KeyError: page_start"
          | some ps =>
              match sec.page_end with
              | none => .error "KeyError: page_end"
              | some pe =>
                  .ok { id := pfx ++ "-" ++ pyStr number
                        number := data.number
                        title := data.title
                        agreed_text := data.agreed_text
                        sub_clauses := data.sub_clauses
                        status := data.status
                        references := data.references
                        sect := sec.title
                        section_index := (sec.index : Int)
                        page_range := [ps, pe]
                        error := none }

/-- `_extract_single` from `pipeline/extractor.py`: run the `try` block; on
any exception enter the `except` handler, which itself reads
`section["prefix"]` (in its log line and in the stub's `id`) and
`section["page_start"]`/`section["page_end"]` (in the stub's `page_range`),
so it raises `KeyError` instead of returning the stub whenever one of those
keys is absent — as it is on every section `discover_sections` builds. -/
def extract_single (result : Except String OracleClause) (sec : SectionData)
    (number : Int) : Except String RawClause :=
  match extract_single_try result sec number with
  | .ok data => .ok data
  | .error exc =>
      match sec.pfx, sec.page_start, sec.page_end with
      | some pfx, some ps, some pe =>
          .ok { id := pfx ++ "-" ++ pyStr number
                number := number
                title := "Clause " ++ pyStr number
                agreed_text := ""
                sub_clauses := []
                status := "unamended"
                references := []
                sect := sec.title
                section_index := (sec.index : Int)
                page_range := [ps, pe]
                error := some exc }
      | none, _, _ => .error "KeyError: prefix"
      | _, none, _ => .error "KeyError: page_start"
      | _, _, none => .error "KeyError: page_end"

/-- The numbers `extract_clauses` reads for one section:
`clause_index.get(section["title"], [])`. -/
def section_numbers (clause_index : List (String × List Int))
    (sec : SectionData) : List Int :=
  (clause_index.lookup sec.title).getD []

/-- `extract_clauses` from `pipeline/extractor.py`: section by section in
order, one oracle call per enumerated number (`oracle sec n` is that call's
outcome); sections with no enumerated numbers are skipped.  An exception
escaping `_extract_single` propagates out of `asyncio.gather` and aborts
the whole stage, modelled by the `Except` result (`mapM` keeps the first
error, as `gather` re-raises the first raised exception). -/
def extract_clauses (oracle : SectionData → Int → Except String OracleClause)
    (sections : List SectionData)
    (clause_index : List (String × List Int)) : Except String (List RawClause) :=
  sections.foldlM (fun all_clauses sec =>
    let numbers := section_numbers clause_index sec
    if numbers.isEmpty then Except.ok all_clauses
    else (numbers.mapM (fun n => extract_single (oracle sec n) sec n)).map
      (fun clauses => all_clauses ++ clauses)) []

/-! ## Assembler (`pipeline/assembler.py`) -/

/-- The sort key of `assemble`: `(c.get("section_index", 0), c.get("number", 0))`. -/
def clauseKey (c : RawClause) : Int × Int := (c.section_index, c.number)

/-- Lexicographic comparison of sort keys — Python tuple `<=`. -/
def keyLE (a b : Int × Int) : Prop := a.1 < b.1 ∨ (a.1 = b.1 ∧ a.2 ≤ b.2)

/-- Strict lexicographic comparison of sort keys. -/
def keyLT (a b : Int × Int) : Prop := a.1 < b.1 ∨ (a.1 = b.1 ∧ a.2 < b.2)

instance : DecidableRel keyLE := fun a b => by unfold keyLE; infer_instance

instance : DecidableRel keyLT := fun a b => by unfold keyLT; infer_instance

/-- The order `sorted(raw_clauses, key=...)` sorts by. -/
def clauseLE (a b : RawClause) : Prop := keyLE (clauseKey a) (clauseKey b)

instance : DecidableRel clauseLE := fun a b => by unfold clauseLE; infer_instance

instance : IsTotal RawClause clauseLE :=
  ⟨by intro a b; unfold clauseLE keyLE; omega⟩

instance : IsTrans RawClause clauseLE :=
  ⟨by intro a b c; unfold clauseLE keyLE; omega⟩

/-- `assemble` from `pipeline/assembler.py`: stable sort by
`(section_index, number)` (Python's stable `sorted` modelled by the stable
`List.insertionSort`), drop entries whose stripped body is empty, and emit
`{id, title, text}` with `id = str(number)` and the stripped body. -/
def assemble (raw_clauses : List RawClause) : List Clause :=
  let ordered := List.insertionSort clauseLE raw_clauses
  ordered.filterMap (fun raw =>
    let text := pyStrip raw.agreed_text
    if text = "" then none
    else some { id := pyStr raw.number, title := raw.title, text := text })

/-- The raw clauses that survive assembly, in output order. -/
def assembled_raws (raw_clauses : List RawClause) : List RawClause :=
  (List.insertionSort clauseLE raw_clauses).filter
    (fun raw => pyStrip raw.agreed_text != "")

/-! ## Decimal printing is injective (Python `str` on distinct ints differs) -/

theorem natDigitsRev_lt10 : ∀ (fuel n : Nat), ∀ d ∈ natDigitsRev fuel n, d < 10 := by
  intro fuel
  induction fuel with
  | zero => intro n d hd; simp [natDigitsRev] at hd
  | succ fuel ih =>
      intro n d hd
      rw [natDigitsRev] at hd
      by_cases h0 : n = 0
      · simp [h0] at hd
      · rw [if_neg h0] at hd
        rcases List.mem_cons.mp hd with h | h
        · subst h; exact Nat.mod_lt _ (by norm_num)
        · exact ih _ d h

/-- Rebuilding the number from its least-significant-first digits. -/
theorem natDigitsRev_foldr : ∀ (fuel n : Nat), n ≤ fuel →
    (natDigitsRev fuel n).foldr (fun d acc => d + 10 * acc) 0 = n := by
  intro fuel
  induction fuel with
  | zero => intro n hn; interval_cases n; simp [natDigitsRev]
  | succ fuel ih =>
      intro n hn
      rw [natDigitsRev]
      by_cases h0 : n = 0
      · simp [h0]
      · rw [if_neg h0, List.foldr_cons, ih (n / 10) ?_]
        · exact Nat.mod_add_div n 10
        · have : n / 10 < n := Nat.div_lt_self (Nat.pos_of_ne_zero h0) (by norm_num)
          omega

theorem digitChar_inj_lt10 : ∀ d < 10, ∀ e < 10,
    Nat.digitChar d = Nat.digitChar e → d = e := by decide

theorem digitChar_ne_minus : ∀ d < 10, Nat.digitChar d ≠ Char.ofNat 45 := by decide

theorem map_digitChar_inj : ∀ (l₁ l₂ : List Nat), (∀ d ∈ l₁, d < 10) → (∀ d ∈ l₂, d < 10) →
    l₁.map Nat.digitChar = l₂.map Nat.digitChar → l₁ = l₂ := by
  intro l₁
  induction l₁ with
  | nil => intro l₂ _ _ h; cases l₂ <;> simp_all
  | cons a t ih =>
      intro l₂ h₁ h₂ h
      cases l₂ with
      | nil => simp at h
      | cons b t' =>
          simp only [List.map_cons, List.cons.injEq] at h
          have ha : a = b := digitChar_inj_lt10 a (h₁ a (by simp)) b (h₂ b (by simp)) h.1
          have ht : t = t' := ih t' (fun d hd => h₁ d (by simp [hd]))
            (fun d hd => h₂ d (by simp [hd])) h.2
          simp [ha, ht]

theorem pyStrNat_injective : ∀ (a b : Nat), pyStrNat a = pyStrNat b → a = b := by
  have digits_eq : ∀ n : Nat, n ≠ 0 →
      ∀ m : Nat, m ≠ 0 →
      (natDigitsRev n n).reverse = (natDigitsRev m m).reverse → n = m := by
    intro n hn m hm h
    have h' : natDigitsRev n n = natDigitsRev m m := List.reverse_injective h
    have := natDigitsRev_foldr n n le_rfl
    rw [h', natDigitsRev_foldr m m le_rfl] at this
    omega
  intro a b h
  unfold pyStrNat at h
  by_cases ha : a = 0 <;> by_cases hb : b = 0
  · omega
  · exfalso
    rw [if_pos ha, if_neg hb] at h
    have hdata : [Char.ofNat 48] = (natDigitsRev b b).reverse.map Nat.digitChar := by
      have := congrArg String.data h
      simpa using this
    cases hrev : (natDigitsRev b b).reverse with
    | nil => rw [hrev] at hdata; simp at hdata
    | cons d t =>
        rw [hrev] at hdata
        simp only [List.map_cons, List.cons.injEq] at hdata
        have hd10 : d < 10 := by
          have : d ∈ natDigitsRev b b := by
            have : d ∈ (natDigitsRev b b).reverse := by rw [hrev]; simp
            simpa using this
          exact natDigitsRev_lt10 b b d this
        have hd0 : d = 0 := by
          have h0 : Nat.digitChar 0 = Char.ofNat 48 := by decide
          exact digitChar_inj_lt10 d hd10 0 (by norm_num) (by rw [← hdata.1, h0])
        have ht : t = [] := by
          have h2 := hdata.2
          cases t with
          | nil => rfl
          | cons x xs => simp at h2
        have hfold := natDigitsRev_foldr b b le_rfl
        have : natDigitsRev b b = [0] := by
          have : (natDigitsRev b b).reverse = [0] := by rw [hrev, hd0, ht]
          simpa using List.reverse_injective (by simpa using this)
        rw [this] at hfold
        simp at hfold
        exact hb hfold.symm
  · exfalso
    rw [if_neg ha, if_pos hb] at h
    have hdata : (natDigitsRev a a).reverse.map Nat.digitChar = [Char.ofNat 48] := by
      have := congrArg String.data h
      simpa using this
    cases hrev : (natDigitsRev a a).reverse with
    | nil => rw [hrev] at hdata; simp at hdata
    | cons d t =>
        rw [hrev] at hdata
        simp only [List.map_cons, List.cons.injEq] at hdata
        have hd10 : d < 10 := by
          have : d ∈ natDigitsRev a a := by
            have : d ∈ (natDigitsRev a a).reverse := by rw [hrev]; simp
            simpa using this
          exact natDigitsRev_lt10 a a d this
        have hd0 : d = 0 := by
          have h0 : Nat.digitChar 0 = Char.ofNat 48 := by decide
          exact digitChar_inj_lt10 d hd10 0 (by norm_num) (by rw [hdata.1, h0])
        have ht : t = [] := by
          have h2 := hdata.2
          cases t with
          | nil => rfl
          | cons x xs => simp at h2
        have hfold := natDigitsRev_foldr a a le_rfl
        have : natDigitsRev a a = [0] := by
          have : (natDigitsRev a a).reverse = [0] := by rw [hrev, hd0, ht]
          simpa using List.reverse_injective (by simpa using this)
        rw [this] at hfold
        simp at hfold
        exact ha hfold.symm
  · rw [if_neg ha, if_neg hb] at h
    have hdata := congrArg String.data h
    simp only [String.data] at hdata
    have hmap : (natDigitsRev a a).reverse.map Nat.digitChar
        = (natDigitsRev b b).reverse.map Nat.digitChar := hdata
    have hrev := map_digitChar_inj _ _
      (fun d hd => natDigitsRev_lt10 a a d (by simpa using hd))
      (fun d hd => natDigitsRev_lt10 b b d (by simpa using hd)) hmap
    exact digits_eq a ha b hb hrev

/-- `pyStrNat` never begins with a minus sign. -/
theorem pyStrNat_ne_minus_append (n : Nat) (s : String) : pyStrNat n ≠ "-" ++ s := by
  intro h
  have hdata := congrArg String.data h
  rw [String.data_append] at hdata
  have hminus : ("-" : String).data = [Char.ofNat 45] := by decide
  rw [hminus] at hdata
  unfold pyStrNat at hdata
  by_cases h0 : n = 0
  · rw [if_pos h0] at hdata
    have : ("0" : String).data = [Char.ofNat 48] := by decide
    rw [this] at hdata
    have : Char.ofNat 48 = Char.ofNat 45 := by
      have := List.head_eq_of_cons_eq hdata
      exact this
    exact absurd this (by decide)
  · rw [if_neg h0] at hdata
    simp only [String.data] at hdata
    cases hrev : (natDigitsRev n n).reverse with
    | nil =>
        rw [hrev] at hdata
        simp at hdata
    | cons d t =>
        rw [hrev] at hdata
        simp only [List.map_cons, List.cons_append, List.cons.injEq] at hdata
        have hd10 : d < 10 := by
          have : d ∈ natDigitsRev n n := by
            have : d ∈ (natDigitsRev n n).reverse := by rw [hrev]; simp
            simpa using this
          exact natDigitsRev_lt10 n n d this
        exact digitChar_ne_minus d hd10 hdata.1

/-- Agreement of `sorted(set(l))` with `l` characterizes strict increase. -/
theorem pySortedSet_eq_self_iff (l : List Int) :
    l = pySortedSet l ↔ l.Pairwise (fun a b => a < b) := by
  constructor
  · intro h
    have hperm : (pySortedSet l).Perm l.dedup := List.perm_insertionSort _ _
    have hnd : l.Nodup := by
      rw [h]; exact hperm.symm.nodup l.nodup_dedup
    have hs : l.Sorted (fun a b : Int => a ≤ b) := by
      rw [h]; exact List.sorted_insertionSort _ _
    exact (List.Pairwise.and hs hnd).imp (fun hab => lt_of_le_of_ne hab.1 hab.2)
  · intro h
    have hnd : l.Nodup := h.imp (fun hab => ne_of_lt hab)
    have hs : l.Sorted (fun a b : Int => a ≤ b) := h.imp (fun hab => le_of_lt hab)
    unfold pySortedSet
    rw [List.dedup_eq_self.mpr hnd, hs.insertionSort_eq]

/-- Python `str` is injective on integers: distinct numbers stringify apart. -/
theorem pyStr_injective : ∀ (i j : Int), pyStr i = pyStr j → i = j := by
  intro i j h
  unfold pyStr at h
  by_cases hi : i < 0 <;> by_cases hj : j < 0
  · rw [if_pos hi, if_pos hj] at h
    have hdata := congrArg String.data h
    rw [String.data_append, String.data_append] at hdata
    have : (pyStrNat i.natAbs).data = (pyStrNat j.natAbs).data :=
      List.append_cancel_left hdata
    have habs : i.natAbs = j.natAbs := pyStrNat_injective _ _ (String.ext this)
    omega
  · rw [if_pos hi, if_neg hj] at h
    exact absurd h.symm (pyStrNat_ne_minus_append _ _)
  · rw [if_neg hi, if_pos hj] at h
    exact absurd h (pyStrNat_ne_minus_append _ _)
  · rw [if_neg hi, if_neg hj] at h
    have := pyStrNat_injective _ _ h
    omega

/-! ## Claim C1 — the restart condition of the Section Segmenter -/

/-- C1 counterexample: the claim says a pair with `prev = curr` (2 followed
by 2) is declared a restart candidate, because it reads the condition as
"previous ≥ current".  The code skips the pair whenever `prev_num <=
curr_num`, so at `prev = curr = 2` — which satisfies the claim's condition
`curr ≤ 2 ∧ prev ≥ curr` — no restart is declared. -/
theorem restart_candidate_equal_pair_not_restart :
    (2 ≤ 2 ∧ 2 ≥ 2) ∧ restart_candidate 2 2 = false := by decide

/-- C1 (amended): in `discover_sections`, a consecutive numbering pair
`(prev, curr)` is a restart candidate exactly when the current number is at
most 2 and the previous number is strictly greater than the current one; a
pair with `prev = curr` is never a restart candidate. -/
theorem restart_candidate_iff_strict (prev_num curr_num : Nat) :
    (restart_candidate prev_num curr_num = true ↔
      curr_num ≤ 2 ∧ curr_num < prev_num)
    ∧ restart_candidate curr_num curr_num = false := by
  refine ⟨?_, by simp [restart_candidate]⟩
  constructor
  · intro h
    simp only [restart_candidate, Bool.not_eq_true', Bool.or_eq_false_iff,
      decide_eq_false_iff_not, not_lt, not_le] at h
    omega
  · intro h
    simp only [restart_candidate, Bool.not_eq_true', Bool.or_eq_false_iff,
      decide_eq_false_iff_not, not_lt, not_le]
    omega

/-! ## Claim C5 — enumeration validation -/

/-- C5: `_validate` accepts a list exactly when it is non-empty, all its
elements are integers, and the integers are strictly increasing (no
duplicates — the list equals its own sorted unique form); the spec's five
probes behave as stated: `[1,2,3]` passes, `[1,1,2]`, `[3,2,1]`, `[]` and
`["a"]` all fail. -/
theorem validate_accepts_iff :
    (∀ numbers : List PyVal, validate numbers = none ↔
      numbers ≠ [] ∧ numbers.all isInt = true
        ∧ (asInts numbers).Pairwise (fun a b => a < b))
    ∧ validate [PyVal.int 1, PyVal.int 2, PyVal.int 3] = none
    ∧ validate [PyVal.int 1, PyVal.int 1, PyVal.int 2] ≠ none
    ∧ validate [PyVal.int 3, PyVal.int 2, PyVal.int 1] ≠ none
    ∧ validate [] ≠ none
    ∧ validate [PyVal.str "a"] ≠ none := by
  refine ⟨?_, by decide, by decide, by decide, by decide, by decide⟩
  intro numbers
  unfold validate
  by_cases h1 : numbers.isEmpty
  · rw [if_pos h1]
    simp only [List.isEmpty_iff] at h1
    simp [h1]
  · rw [if_neg h1]
    simp only [List.isEmpty_iff] at h1
    by_cases h2 : numbers.all isInt
    · rw [if_neg (by simp [h2])]
      by_cases h3 : asInts numbers = pySortedSet (asInts numbers)
      · rw [if_neg (fun hne => hne h3)]
        simp [h1, h2, (pySortedSet_eq_self_iff _).mp h3]
      · rw [if_pos h3]
        have : ¬ (asInts numbers).Pairwise (fun a b => a < b) := by
          intro hp
          exact h3 ((pySortedSet_eq_self_iff _).mpr hp)
        simp [this]
    · rw [if_pos (by simpa using h2)]
      simp [h2]

/-! ## Claim C7 — the per-clause stub path actually raises `KeyError` -/

/-- C7 (code bug): the claim describes the intended fault isolation — and
matches the `SectionData` schema `state.py` declares — but the code breaks
it.  `discover_sections` never sets the `prefix`/`page_start`/`page_end`
keys (first two conjuncts: the pipeline's section for a concrete document
lacks them), so on a failing oracle call the `except` handler of
`_extract_single` itself reads `section["prefix"]` in its log line and stub
and raises `KeyError` instead of returning the stub (third conjunct) —
failing the section and, through `asyncio.gather`, its sibling extractions.
The last conjunct shows the behavior the claim states on a section that
does carry all three keys: the handler returns exactly the stub, `title =
"Clause 1"`, empty body, `error` set — the claim captures the intent and
the unpopulated keys are the slip. -/
theorem extract_single_keyerror_at_pipeline_section :
    discover_sections [DocumentElement.mk "TEXT" "hello" 1 0 false]
      = [mkSection "Main Clauses" 0 [DocumentElement.mk "TEXT" "hello" 1 0 false]]
    ∧ (mkSection "Main Clauses" 0
        [DocumentElement.mk "TEXT" "hello" 1 0 false]).pfx = none
    ∧ extract_single (Except.error "boom")
        (mkSection "Main Clauses" 0 [DocumentElement.mk "TEXT" "hello" 1 0 false]) 1
      = Except.error "KeyError: prefix"
    ∧ extract_single (Except.error "boom")
        (SectionData.mk "T" (some "p") 0 [] "" (some 1) (some 2)) 1
      = Except.ok (RawClause.mk "p-1" 1 "Clause 1" "" [] "unamended" [] "T" 0
          [1, 2] (some "boom")) :=
  ⟨rfl, rfl, rfl, rfl⟩

/-! ## Claim C3 — the bounded enumeration retry loop -/

theorem should_retry_lt (s : EnumState) :
    should_retry s = true → s.enumeration_attempts < MAX_ATTEMPTS := by
  simp only [should_retry, Bool.and_eq_true, decide_eq_true_eq]
  exact fun h => h.2

theorem enumeration_loop_le (o : Nat → Nat → EnumResponse) (ss : List SectionData) :
    ∀ (n : Nat) (s : EnumState), MAX_ATTEMPTS - s.enumeration_attempts ≤ n →
      s.enumeration_attempts < MAX_ATTEMPTS →
      (enumeration_loop o ss s).enumeration_attempts ≤ MAX_ATTEMPTS := by
  intro n
  induction n with
  | zero => intro s hle hlt; omega
  | succ n ih =>
      intro s hle hlt
      rw [enumeration_loop]
      by_cases h : should_retry (enumerate_clauses o ss s)
      · rw [if_pos h]
        have hlt' := should_retry_lt _ h
        have hstep : (enumerate_clauses o ss s).enumeration_attempts
            = s.enumeration_attempts + 1 := rfl
        exact ih _ (by omega) hlt'
      · rw [if_neg h]
        have hstep : (enumerate_clauses o ss s).enumeration_attempts
            = s.enumeration_attempts + 1 := rfl
        omega

theorem enumeration_loop_ge (o : Nat → Nat → EnumResponse) (ss : List SectionData) :
    ∀ (n : Nat) (s : EnumState), MAX_ATTEMPTS - s.enumeration_attempts ≤ n →
      s.enumeration_attempts + 1 ≤ (enumeration_loop o ss s).enumeration_attempts := by
  intro n
  induction n with
  | zero =>
      intro s hle
      rw [enumeration_loop]
      by_cases h : should_retry (enumerate_clauses o ss s)
      · exfalso
        have hlt' := should_retry_lt _ h
        have hstep : (enumerate_clauses o ss s).enumeration_attempts
            = s.enumeration_attempts + 1 := rfl
        omega
      · rw [if_neg h]
        exact le_rfl
  | succ n ih =>
      intro s hle
      rw [enumeration_loop]
      by_cases h : should_retry (enumerate_clauses o ss s)
      · rw [if_pos h]
        have hstep : (enumerate_clauses o ss s).enumeration_attempts
            = s.enumeration_attempts + 1 := rfl
        have := ih (enumerate_clauses o ss s) (by omega)
        omega
      · rw [if_neg h]
        exact le_rfl

/-- C3: starting from a fresh pipeline state (`enumeration_attempts = 0`),
the retry loop of `run_pipeline` runs `enumerate_clauses` at least once and
at most `MAX_ATTEMPTS = 3` times, whatever the oracle returns — the final
counter equals the number of executions, because each execution raises it by
exactly one (last conjunct) and the loop's only exit is `should_retry =
false`; `should_retry` answers true only while the counter is strictly below
3 (third conjunct), so the loop terminates (witnessed by `enumeration_loop`
being total). -/
theorem enumeration_retry_bound (oracle : Nat → Nat → EnumResponse)
    (sections : List SectionData) (state : EnumState)
    (h0 : state.enumeration_attempts = 0) :
    1 ≤ (enumeration_loop oracle sections state).enumeration_attempts
    ∧ (enumeration_loop oracle sections state).enumeration_attempts ≤ MAX_ATTEMPTS
    ∧ (∀ s : EnumState, should_retry s = true → s.enumeration_attempts < MAX_ATTEMPTS)
    ∧ (∀ (o : Nat → Nat → EnumResponse) (ss : List SectionData) (s : EnumState),
        (enumerate_clauses o ss s).enumeration_attempts = s.enumeration_attempts + 1) := by
  refine ⟨?_, ?_, fun s => should_retry_lt s, fun o ss s => rfl⟩
  · have := enumeration_loop_ge oracle sections MAX_ATTEMPTS state (Nat.sub_le _ _)
    omega
  · exact enumeration_loop_le oracle sections MAX_ATTEMPTS state (Nat.sub_le _ _)
      (by rw [h0]; decide)

/-- C3 witness: the bound evaluated on a concrete run (one section whose
oracle always fails, so every pass leaves it empty and the loop is driven to
the full three attempts). -/
theorem enumeration_retry_bound_witness :
    1 ≤ (enumeration_loop (fun _ _ => Except.error "boom")
          [{ title := "T", index := 0 }] ⟨0, []⟩).enumeration_attempts
    ∧ (enumeration_loop (fun _ _ => Except.error "boom")
          [{ title := "T", index := 0 }] ⟨0, []⟩).enumeration_attempts ≤ MAX_ATTEMPTS
    ∧ (∀ s : EnumState, should_retry s = true → s.enumeration_attempts < MAX_ATTEMPTS)
    ∧ (∀ (o : Nat → Nat → EnumResponse) (ss : List SectionData) (s : EnumState),
        (enumerate_clauses o ss s).enumeration_attempts = s.enumeration_attempts + 1) :=
  enumeration_retry_bound (fun _ _ => Except.error "boom")
    [{ title := "T", index := 0 }] ⟨0, []⟩ rfl

/-! ## Claim C8 — the strikethrough decision rule -/

theorem strike_step_eq (normalized : String) (acc : Nat) (f : String) :
    strike_fold_step normalized acc f = acc + strike_fragment_overlap normalized f := by
  unfold strike_fold_step strike_fragment_overlap
  by_cases h1 : (pyNormalize f).length < 5
  · rw [if_pos h1, if_neg (fun hc => absurd hc.1 (by omega))]
    simp
  · rw [if_neg h1]
    by_cases h2 : (pyNormalize f).toList <:+: normalized.toList
    · rw [if_pos h2, if_pos ⟨by omega, h2⟩]
    · rw [if_neg h2, if_neg (fun hc => h2 hc.2)]
      simp

theorem strike_foldl_eq (normalized : String) :
    ∀ (fragments : List String) (acc : Nat),
      fragments.foldl (strike_fold_step normalized) acc
      = acc + struck_overlap fragments normalized := by
  intro fragments
  induction fragments with
  | nil => intro acc; simp [struck_overlap]
  | cons f rest ih =>
      intro acc
      rw [List.foldl_cons, strike_step_eq normalized acc f, ih]
      simp only [struck_overlap, List.map_cons, List.sum_cons]
      omega

theorem is_text_struck_eq (text : String) (page : Nat)
    (struck_text : List (Nat × List String)) :
    is_text_struck text page struck_text =
      decide (2 * struck_overlap ((struck_text.lookup page).getD [])
        (pyNormalize text) > (pyNormalize text).length) := by
  unfold is_text_struck
  by_cases hfe : ((struck_text.lookup page).getD []).isEmpty
  · rw [if_pos hfe]
    have hnil : (struck_text.lookup page).getD [] = [] := by
      simpa [List.isEmpty_iff] using hfe
    rw [hnil]
    simp [struck_overlap]
  · rw [if_neg hfe, strike_foldl_eq]
    simp

/-- C8: the strikethrough decision for a text element is exactly: normalize
whitespace and case, sum the normalized lengths of the page's struck
fragments of normalized length ≥ 5 that are substrings of the element's
normalized text, and judge the element struck exactly when that sum exceeds
50% of the normalized text's length (first conjunct); an element on a page
with no struck fragments is always retained (second conjunct); an element
whose normalized text is itself such a fragment of length ≥ 5 is dropped
(third conjunct). -/
theorem strike_decision_rule (text : String) (page : Nat)
    (struck_text : List (Nat × List String)) :
    (is_text_struck text page struck_text = true ↔
      2 * struck_overlap ((struck_text.lookup page).getD []) (pyNormalize text)
        > (pyNormalize text).length)
    ∧ ((struck_text.lookup page).getD [] = [] →
        is_text_struck text page struck_text = false)
    ∧ (∀ fragment ∈ (struck_text.lookup page).getD [],
        pyNormalize fragment = pyNormalize text →
        5 ≤ (pyNormalize fragment).length →
        is_text_struck text page struck_text = true) := by
  refine ⟨?_, ?_, ?_⟩
  · rw [is_text_struck_eq]
    exact decide_eq_true_iff
  · intro hnil
    rw [is_text_struck_eq, hnil]
    simp [struck_overlap]
  · intro fragment hmem hfr hlen
    rw [is_text_struck_eq, decide_eq_true_iff]
    have hval : strike_fragment_overlap (pyNormalize text) fragment
        = (pyNormalize fragment).length := by
      unfold strike_fragment_overlap
      rw [if_pos ⟨hlen, by rw [hfr]⟩]
    have hsum : strike_fragment_overlap (pyNormalize text) fragment ≤
        struck_overlap ((struck_text.lookup page).getD []) (pyNormalize text) :=
      List.single_le_sum (fun x _ => Nat.zero_le x) _
        (List.mem_map_of_mem (strike_fragment_overlap (pyNormalize text)) hmem)
    have hlen_text : (pyNormalize text).length = (pyNormalize fragment).length := by
      rw [hfr]
    omega

/-! ## Claim C6 — empty-bodied raw clauses never reach the output -/

/-- C6: every clause in `assemble`'s output has non-empty (stripped) text,
and each output clause is the image of an input RawClause whose stripped
body is non-empty — so a RawClause with an empty or whitespace-only body
never appears in the final output. -/
theorem assemble_no_empty_bodies (raw_clauses : List RawClause) (c : Clause)
    (hc : c ∈ assemble raw_clauses) :
    c.text ≠ ""
    ∧ ∃ raw ∈ raw_clauses, pyStrip raw.agreed_text ≠ ""
        ∧ c = { id := pyStr raw.number, title := raw.title,
                text := pyStrip raw.agreed_text } := by
  unfold assemble at hc
  rcases List.mem_filterMap.mp hc with ⟨raw, hmem, hf⟩
  have hmem' : raw ∈ raw_clauses :=
    (List.perm_insertionSort clauseLE raw_clauses).mem_iff.mp hmem
  by_cases ht : pyStrip raw.agreed_text = ""
  · rw [if_pos ht] at hf
    cases hf
  · rw [if_neg ht] at hf
    have hc' := Option.some.inj hf
    refine ⟨?_, raw, hmem', ht, hc'.symm⟩
    rw [← hc']
    exact ht

/-- C6 witness: a two-clause input where the whitespace-only body is dropped
and the surviving clause satisfies the theorem's conclusions. -/
theorem assemble_no_empty_bodies_witness :
    (Clause.mk "1" "T" "hi").text ≠ ""
    ∧ ∃ raw ∈ [RawClause.mk "p-1" 1 "T" " hi " [] "unamended" [] "S" 0 [1, 1] none,
        RawClause.mk "p-2" 2 "U" "   " [] "unamended" [] "S" 0 [1, 1] none],
        pyStrip raw.agreed_text ≠ ""
        ∧ Clause.mk "1" "T" "hi"
          = Clause.mk (pyStr raw.number) raw.title (pyStrip raw.agreed_text) :=
  assemble_no_empty_bodies
    [RawClause.mk "p-1" 1 "T" " hi " [] "unamended" [] "S" 0 [1, 1] none,
     RawClause.mk "p-2" 2 "U" "   " [] "unamended" [] "S" 0 [1, 1] none]
    (Clause.mk "1" "T" "hi") (by decide)

/-! ## Claims C4 and C9 — assembly ordering -/

theorem keyLE_ne_lt {k k' : Int × Int} (h1 : keyLE k k') (h2 : k ≠ k') :
    keyLT k k' := by
  unfold keyLE at h1
  unfold keyLT
  rcases h1 with h | ⟨he, hle⟩
  · exact Or.inl h
  · refine Or.inr ⟨he, ?_⟩
    rcases lt_or_eq_of_le hle with h | h
    · exact h
    · exact absurd (Prod.ext_iff.mpr ⟨he, h⟩) h2

/-- With pairwise-distinct sort keys, the stable sort is strictly sorted. -/
theorem sorted_strict (l : List RawClause)
    (hk : l.Pairwise (fun a b => clauseKey a ≠ clauseKey b)) :
    (List.insertionSort clauseLE l).Pairwise
      (fun a b => keyLT (clauseKey a) (clauseKey b)) := by
  have hs : (List.insertionSort clauseLE l).Pairwise clauseLE :=
    List.sorted_insertionSort clauseLE l
  have hk' : (List.insertionSort clauseLE l).Pairwise
      (fun a b => clauseKey a ≠ clauseKey b) :=
    ((List.perm_insertionSort clauseLE l).pairwise_iff
      (fun h he => h he.symm)).mpr hk
  exact (hs.and hk').imp (fun hab => keyLE_ne_lt hab.1 hab.2)

/-- The output records of `assemble` are exactly the surviving raw clauses
in sorted order, each turned into its `{id, title, text}` record. -/
theorem filterMap_strip_eq (l : List RawClause) :
    l.filterMap (fun raw => if pyStrip raw.agreed_text = "" then none
        else some (Clause.mk (pyStr raw.number) raw.title (pyStrip raw.agreed_text)))
    = (l.filter (fun raw => pyStrip raw.agreed_text != "")).map
        (fun raw => Clause.mk (pyStr raw.number) raw.title (pyStrip raw.agreed_text)) := by
  induction l with
  | nil => simp
  | cons a t ih =>
      by_cases h : pyStrip a.agreed_text = ""
      · simp [List.filterMap_cons, List.filter_cons, h, ih]
      · simp [List.filterMap_cons, List.filter_cons, h, ih]

/-- C4 counterexample: the claim quantifies over all inputs, but `assemble`
never deduplicates — on an input with two RawClauses carrying the same
`(section_index, number) = (0, 1)` key, the output holds two clauses from
the same section that both have id "1", and the output order is not
strictly sorted by those keys (they tie). -/
theorem assemble_duplicate_key_shared_id :
    assemble [RawClause.mk "p-1" 1 "A" "a" [] "unamended" [] "S" 0 [1, 1] none,
              RawClause.mk "p-1" 1 "B" "b" [] "unamended" [] "S" 0 [1, 1] none]
      = [Clause.mk "1" "A" "a", Clause.mk "1" "B" "b"]
    ∧ (RawClause.mk "p-1" 1 "A" "a" [] "unamended" [] "S" 0 [1, 1] none).section_index
      = (RawClause.mk "p-1" 1 "B" "b" [] "unamended" [] "S" 0 [1, 1] none).section_index
    ∧ clauseKey (RawClause.mk "p-1" 1 "A" "a" [] "unamended" [] "S" 0 [1, 1] none)
      = clauseKey (RawClause.mk "p-1" 1 "B" "b" [] "unamended" [] "S" 0 [1, 1] none) := by
  decide

/-- C4 (amended): when the `(section_index, number)` keys of the input
RawClauses are pairwise distinct — which is how the extraction stage
produces them, one clause per validated number per section —
(i) `assemble`'s output is exactly the surviving raw clauses in sorted
order, (ii) the origin keys of the output are strictly increasing in the
lexicographic order, and (iii) no two surviving raw clauses of the same
section share a stringified id. -/
theorem assemble_strictly_sorted_of_distinct_keys (raw_clauses : List RawClause)
    (hk : raw_clauses.Pairwise (fun a b => clauseKey a ≠ clauseKey b)) :
    assemble raw_clauses = (assembled_raws raw_clauses).map
        (fun raw => Clause.mk (pyStr raw.number) raw.title (pyStrip raw.agreed_text))
    ∧ ((assembled_raws raw_clauses).map clauseKey).Pairwise keyLT
    ∧ (assembled_raws raw_clauses).Pairwise
        (fun a b => a.section_index = b.section_index →
          pyStr a.number ≠ pyStr b.number) := by
  have hstrict := sorted_strict raw_clauses hk
  have hfil : (assembled_raws raw_clauses).Pairwise
      (fun a b => keyLT (clauseKey a) (clauseKey b)) := by
    unfold assembled_raws
    exact hstrict.filter _
  refine ⟨filterMap_strip_eq _, ?_, ?_⟩
  · rw [List.pairwise_map]
    exact hfil
  · refine hfil.imp ?_
    intro a b hab hsec hstr
    have hnum := pyStr_injective _ _ hstr
    unfold keyLT clauseKey at hab
    rcases hab with h | ⟨_, hlt⟩
    · simp only at h
      omega
    · simp only at hlt
      omega

/-- C4 witness: the amended claim evaluated at a concrete two-clause input
with distinct keys (given out of order to exercise the sort). -/
theorem assemble_strictly_sorted_witness :
    assemble [RawClause.mk "p-2" 2 "B" "b" [] "unamended" [] "S" 0 [1, 1] none,
              RawClause.mk "p-1" 1 "A" "a" [] "unamended" [] "S" 0 [1, 1] none]
      = (assembled_raws
          [RawClause.mk "p-2" 2 "B" "b" [] "unamended" [] "S" 0 [1, 1] none,
           RawClause.mk "p-1" 1 "A" "a" [] "unamended" [] "S" 0 [1, 1] none]).map
        (fun raw => Clause.mk (pyStr raw.number) raw.title (pyStrip raw.agreed_text))
    ∧ ((assembled_raws
          [RawClause.mk "p-2" 2 "B" "b" [] "unamended" [] "S" 0 [1, 1] none,
           RawClause.mk "p-1" 1 "A" "a" [] "unamended" [] "S" 0 [1, 1] none]).map
        clauseKey).Pairwise keyLT
    ∧ (assembled_raws
          [RawClause.mk "p-2" 2 "B" "b" [] "unamended" [] "S" 0 [1, 1] none,
           RawClause.mk "p-1" 1 "A" "a" [] "unamended" [] "S" 0 [1, 1] none]).Pairwise
        (fun a b => a.section_index = b.section_index →
          pyStr a.number ≠ pyStr b.number) :=
  assemble_strictly_sorted_of_distinct_keys
    [RawClause.mk "p-2" 2 "B" "b" [] "unamended" [] "S" 0 [1, 1] none,
     RawClause.mk "p-1" 1 "A" "a" [] "unamended" [] "S" 0 [1, 1] none]
    (by decide)

/-- C9: `assemble` is a pure function in this embedding (re-running it on
the same input is the same term, hence the same output), and when all
`(section_index, number)` keys are pairwise distinct its output is invariant
under any permutation of its input — the completion order of the concurrent
extraction calls never affects the final output. -/
theorem assemble_completion_order_independent (l1 l2 : List RawClause)
    (hperm : l1.Perm l2)
    (hk : l1.Pairwise (fun a b => clauseKey a ≠ clauseKey b)) :
    assemble l1 = assemble l2 := by
  have hk2 : l2.Pairwise (fun a b => clauseKey a ≠ clauseKey b) :=
    (hperm.pairwise_iff (fun h he => h he.symm)).mp hk
  have h1 := sorted_strict l1 hk
  have h2 := sorted_strict l2 hk2
  have hp : (List.insertionSort clauseLE l1).Perm (List.insertionSort clauseLE l2) :=
    (List.perm_insertionSort clauseLE l1).trans
      (hperm.trans (List.perm_insertionSort clauseLE l2).symm)
  haveI : IsAntisymm RawClause (fun a b => keyLT (clauseKey a) (clauseKey b)) := by
    refine ⟨fun a b hab hba => ?_⟩
    exfalso
    unfold keyLT at hab hba
    omega
  have hsorteq : List.insertionSort clauseLE l1 = List.insertionSort clauseLE l2 :=
    List.eq_of_perm_of_sorted hp h1 h2
  unfold assemble
  rw [hsorteq]

/-- C9 witness: two orderings of the same two distinct-key raw clauses
assemble to the same output. -/
theorem assemble_completion_order_independent_witness :
    assemble [RawClause.mk "p-1" 1 "A" "a" [] "unamended" [] "S" 0 [1, 1] none,
              RawClause.mk "p-2" 2 "B" "b" [] "unamended" [] "S" 1 [2, 2] none]
      = assemble [RawClause.mk "p-2" 2 "B" "b" [] "unamended" [] "S" 1 [2, 2] none,
                  RawClause.mk "p-1" 1 "A" "a" [] "unamended" [] "S" 0 [1, 1] none] :=
  assemble_completion_order_independent
    [RawClause.mk "p-1" 1 "A" "a" [] "unamended" [] "S" 0 [1, 1] none,
     RawClause.mk "p-2" 2 "B" "b" [] "unamended" [] "S" 1 [2, 2] none]
    [RawClause.mk "p-2" 2 "B" "b" [] "unamended" [] "S" 1 [2, 2] none,
     RawClause.mk "p-1" 1 "A" "a" [] "unamended" [] "S" 0 [1, 1] none]
    (by decide) (by decide)

/-! ## Claim C10 — the clause index is keyed by section title -/

theorem pyDictInsert_lookup (k k' : String) (v : List Int)
    (d : List (String × List Int)) :
    (pyDictInsert k' v d).lookup k = if k = k' then some v else d.lookup k := by
  induction d with
  | nil =>
      unfold pyDictInsert
      by_cases h : k = k'
      · simp [List.lookup, h]
      · have hb : (k == k') = false := by simp [h]
        simp [List.lookup, hb, h]
  | cons kv rest ih =>
      obtain ⟨a, b⟩ := kv
      unfold pyDictInsert
      by_cases ha : a = k'
      · rw [if_pos ha]
        by_cases hk : k = k'
        · simp [List.lookup, hk]
        · have hka : (k == k') = false := by simp [hk]
          have hka' : (k == a) = false := by simp [ha, hk]
          simp [List.lookup, hka, hka', hk]
      · rw [if_neg ha]
        by_cases hk : k = a
        · have hknk : ¬ k = k' := by rw [hk]; exact ha
          simp [List.lookup, hk, hknk, ha]
        · have hbeq : (k == a) = false := by simp [hk]
          simp [List.lookup, hbeq, ih]

theorem pyDictInsert_mem_keys (k k' : String) (v : List Int)
    (d : List (String × List Int)) :
    k ∈ (pyDictInsert k' v d).map Prod.fst ↔ k = k' ∨ k ∈ d.map Prod.fst := by
  induction d with
  | nil => simp [pyDictInsert]
  | cons kv rest ih =>
      obtain ⟨a, b⟩ := kv
      unfold pyDictInsert
      by_cases ha : a = k'
      · rw [if_pos ha]
        simp only [List.map_cons, List.mem_cons]
        rw [ha]
        tauto
      · rw [if_neg ha]
        simp only [List.map_cons, List.mem_cons, ih]
        tauto

theorem pyDictInsert_keys_nodup (k : String) (v : List Int) :
    ∀ (d : List (String × List Int)), (d.map Prod.fst).Nodup →
      ((pyDictInsert k v d).map Prod.fst).Nodup := by
  intro d
  induction d with
  | nil => intro _; simp [pyDictInsert]
  | cons kv rest ih =>
      intro h
      obtain ⟨a, b⟩ := kv
      rw [List.map_cons, List.nodup_cons] at h
      unfold pyDictInsert
      by_cases ha : a = k
      · rw [if_pos ha]
        rw [List.map_cons, List.nodup_cons]
        exact ⟨by rw [← ha]; exact h.1, h.2⟩
      · rw [if_neg ha]
        rw [List.map_cons, List.nodup_cons]
        refine ⟨?_, ih h.2⟩
        rw [pyDictInsert_mem_keys]
        rintro (he | hm)
        · exact ha he
        · exact h.1 hm

theorem foldl_insert_keys_nodup :
    ∀ (writes : List (String × List Int)) (d : List (String × List Int)),
      (d.map Prod.fst).Nodup →
      ((writes.foldl (fun acc kv => pyDictInsert kv.1 kv.2 acc) d).map Prod.fst).Nodup := by
  intro writes
  induction writes with
  | nil => intro d h; exact h
  | cons kv rest ih =>
      intro d h
      rw [List.foldl_cons]
      exact ih _ (pyDictInsert_keys_nodup kv.1 kv.2 d h)

theorem foldl_insert_lookup_none (t : String) :
    ∀ (writes : List (String × List Int)) (d : List (String × List Int)),
      (∀ kv ∈ writes, kv.1 ≠ t) →
      (writes.foldl (fun acc kv => pyDictInsert kv.1 kv.2 acc) d).lookup t
        = d.lookup t := by
  intro writes
  induction writes with
  | nil => intro d _; rfl
  | cons kv rest ih =>
      intro d h
      have hkv : kv.1 ≠ t := h kv (List.mem_cons_self kv rest)
      rw [List.foldl_cons, ih _ (fun x hx => h x (List.mem_cons_of_mem kv hx)),
        pyDictInsert_lookup, if_neg (fun he => hkv he.symm)]

/-- The last write to a key wins: Python dict-overwrite semantics of the
fold that builds the clause index. -/
theorem foldl_insert_lookup_last (writes : List (String × List Int)) (j : Nat)
    (hj : j < writes.length)
    (hlast : ∀ (k : Nat) (hk : k < writes.length), j < k →
      (writes.get ⟨k, hk⟩).1 ≠ (writes.get ⟨j, hj⟩).1) :
    (writes.foldl (fun acc kv => pyDictInsert kv.1 kv.2 acc) []).lookup
        (writes.get ⟨j, hj⟩).1 = some (writes.get ⟨j, hj⟩).2 := by
  have hsplit : writes = writes.take j ++ writes.get ⟨j, hj⟩ :: writes.drop (j + 1) := by
    conv_lhs => rw [← List.take_append_drop j writes]
    rw [List.drop_eq_getElem_cons hj]
    rfl
  have hdrop : ∀ kv ∈ writes.drop (j + 1), kv.1 ≠ (writes.get ⟨j, hj⟩).1 := by
    intro kv hkv
    rcases List.mem_iff_getElem.mp hkv with ⟨i, hi, hkveq⟩
    have hlen : j + 1 + i < writes.length := by
      rw [List.length_drop] at hi
      omega
    have hidx : (writes.drop (j + 1))[i] = writes[j + 1 + i] := by
      rw [List.getElem_drop]
    intro he
    refine hlast (j + 1 + i) hlen (by omega) ?_
    have hget : writes.get ⟨j + 1 + i, hlen⟩ = kv := by
      rw [List.get_eq_getElem, ← hidx, hkveq]
    rw [hget]
    exact he
  set t := (writes.get ⟨j, hj⟩).1 with ht
  set v := (writes.get ⟨j, hj⟩).2 with hv
  conv_lhs => rw [hsplit]
  rw [List.foldl_append, List.foldl_cons,
    foldl_insert_lookup_none _ _ _ hdrop, pyDictInsert_lookup, if_pos rfl]

/-- The `j`-th write of one enumeration pass targets the `j`-th section's
title with that section's processed oracle response. -/
theorem enum_writes_get (respond : Nat → EnumResponse) (sections : List SectionData)
    (k : Nat) (hk : k < sections.length) :
    ((sections.enum.map (fun js => (js.2.title, processResponse (respond js.1)))).get
        ⟨k, by simp [List.length_map, List.enum_length, hk]⟩)
      = ((sections.get ⟨k, hk⟩).title, processResponse (respond k)) := by
  rw [List.get_eq_getElem, List.getElem_map, List.getElem_enum]
  rfl

theorem build_clause_index_eq (respond : Nat → EnumResponse)
    (sections : List SectionData) :
    build_clause_index respond sections
      = (sections.enum.map (fun js => (js.2.title, processResponse (respond js.1)))).foldl
          (fun acc kv => pyDictInsert kv.1 kv.2 acc) [] := by
  unfold build_clause_index
  rw [List.foldl_map]

/-- C10: the clause index built by `enumerate_clauses` is keyed by section
*title*, not by section index.  For any two sections `i < j` with equal
titles (with `j` the last such section), the built index holds exactly one
entry under that title (its key list is duplicate-free), that entry is the
`j`-th section's processed oracle result — the later section's result
having overwritten the earlier's — and `extract_clauses` therefore reads
the very same clause-number list for both sections
(`section_numbers` is precisely the lookup `extract_clauses` performs). -/
theorem clause_index_keyed_by_title (respond : Nat → EnumResponse)
    (sections : List SectionData) (i j : Nat)
    (hi : i < sections.length) (hj : j < sections.length) (hij : i < j)
    (htitle : (sections.get ⟨i, hi⟩).title = (sections.get ⟨j, hj⟩).title)
    (hlast : ∀ (k : Nat) (hk : k < sections.length), j < k →
      (sections.get ⟨k, hk⟩).title ≠ (sections.get ⟨j, hj⟩).title) :
    ((build_clause_index respond sections).map Prod.fst).Nodup
    ∧ (build_clause_index respond sections).lookup (sections.get ⟨i, hi⟩).title
        = some (processResponse (respond j))
    ∧ section_numbers (build_clause_index respond sections) (sections.get ⟨i, hi⟩)
        = section_numbers (build_clause_index respond sections) (sections.get ⟨j, hj⟩)
    ∧ section_numbers (build_clause_index respond sections) (sections.get ⟨j, hj⟩)
        = processResponse (respond j) := by
  have hwlen : (sections.enum.map
      (fun js => (js.2.title, processResponse (respond js.1)))).length
      = sections.length := by
    simp [List.length_map, List.enum_length]
  have hlook : (build_clause_index respond sections).lookup
      (sections.get ⟨j, hj⟩).title = some (processResponse (respond j)) := by
    rw [build_clause_index_eq]
    have hjw : j < (sections.enum.map
        (fun js => (js.2.title, processResponse (respond js.1)))).length := by
      rw [hwlen]; exact hj
    have := foldl_insert_lookup_last
      (sections.enum.map (fun js => (js.2.title, processResponse (respond js.1)))) j hjw
      (by
        intro k hk hjk
        rw [enum_writes_get respond sections k (by rw [hwlen] at hk; exact hk),
          enum_writes_get respond sections j hj]
        exact fun he => hlast k (by rw [hwlen] at hk; exact hk) hjk he)
    rw [enum_writes_get respond sections j hj] at this
    exact this
  refine ⟨?_, ?_, ?_, ?_⟩
  · rw [build_clause_index_eq]
    exact foldl_insert_keys_nodup _ [] (by simp)
  · rw [htitle]
    exact hlook
  · unfold section_numbers
    rw [htitle]
  · unfold section_numbers
    rw [hlook]
    rfl

/-- C10 witness: two sections titled alike; the oracle answers `[1]` for the
first and `[2]` for the second; the index keeps only the second's list and
both sections extract `[2]`. -/
theorem clause_index_keyed_by_title_witness :
    ((build_clause_index
        (fun j => if j = 0 then Except.ok [PyVal.int 1] else Except.ok [PyVal.int 2])
        [{ title := "T", index := 0 }, { title := "T", index := 1 }]).map Prod.fst).Nodup
    ∧ (build_clause_index
        (fun j => if j = 0 then Except.ok [PyVal.int 1] else Except.ok [PyVal.int 2])
        [{ title := "T", index := 0 }, { title := "T", index := 1 }]).lookup
        (([{ title := "T", index := 0 },
           { title := "T", index := 1 }] : List SectionData).get ⟨0, by decide⟩).title
        = some (processResponse
            ((fun j => if j = 0 then Except.ok [PyVal.int 1] else Except.ok [PyVal.int 2]) 1))
    ∧ section_numbers (build_clause_index
        (fun j => if j = 0 then Except.ok [PyVal.int 1] else Except.ok [PyVal.int 2])
        [{ title := "T", index := 0 }, { title := "T", index := 1 }])
        (([{ title := "T", index := 0 },
           { title := "T", index := 1 }] : List SectionData).get ⟨0, by decide⟩)
        = section_numbers (build_clause_index
        (fun j => if j = 0 then Except.ok [PyVal.int 1] else Except.ok [PyVal.int 2])
        [{ title := "T", index := 0 }, { title := "T", index := 1 }])
        (([{ title := "T", index := 0 },
           { title := "T", index := 1 }] : List SectionData).get ⟨1, by decide⟩)
    ∧ section_numbers (build_clause_index
        (fun j => if j = 0 then Except.ok [PyVal.int 1] else Except.ok [PyVal.int 2])
        [{ title := "T", index := 0 }, { title := "T", index := 1 }])
        (([{ title := "T", index := 0 },
           { title := "T", index := 1 }] : List SectionData).get ⟨1, by decide⟩)
        = processResponse
            ((fun j => if j = 0 then Except.ok [PyVal.int 1] else Except.ok [PyVal.int 2]) 1) :=
  clause_index_keyed_by_title
    (fun j => if j = 0 then Except.ok [PyVal.int 1] else Except.ok [PyVal.int 2])
    [{ title := "T", index := 0 }, { title := "T", index := 1 }]
    0 1 (by decide) (by decide) (by decide) rfl
    (by
      intro k hk hjk
      exfalso
      simp only [List.length_cons, List.length_nil] at hk
      omega)

/-! ## Claim C2 — sections partition the element stream -/

theorem numbered_headers_step_fst {p : Nat × DocumentElement} {b : Nat × Nat}
    (h : (if p.2.label = "SECTION_HEADER" ∧ p.2.is_margin_note = false then
        (extract_leading_number p.2.text).map (fun num => (p.1, num))
      else none) = some b) : b.1 = p.1 := by
  split_ifs at h with hc
  rcases Option.map_eq_some'.mp h with ⟨num, _, hb⟩
  rw [← hb]

theorem numbered_headers_lt (elements : List DocumentElement) :
    ∀ p ∈ numbered_headers elements, p.1 < elements.length := by
  intro p hp
  unfold numbered_headers at hp
  rcases List.mem_filterMap.mp hp with ⟨q, hq, hf⟩
  have hfst := numbered_headers_step_fst hf
  rw [List.enum_eq_zip_range] at hq
  have := List.of_mem_zip (by rw [← Prod.mk.eta (p := q)] at hq; exact hq)
  rw [hfst]
  exact List.mem_range.mp this.1

theorem numbered_headers_pairwise (elements : List DocumentElement) :
    (numbered_headers elements).Pairwise (fun p q => p.1 < q.1) := by
  have henum : elements.enum.Pairwise (fun p q => p.1 < q.1) := by
    rw [List.pairwise_iff_getElem]
    intro i j hi hj hij
    have hi' : i < elements.length := by simpa using hi
    have hj' : j < elements.length := by simpa using hj
    rw [List.getElem_enum, List.getElem_enum]
    exact hij
  unfold numbered_headers
  refine List.Pairwise.filterMap _ ?_ henum
  intro a a' hlt b hb b' hb'
  have h1 := numbered_headers_step_fst (Option.mem_def.mp hb)
  have h2 := numbered_headers_step_fst (Option.mem_def.mp hb')
  rw [h1, h2]
  exact hlt

theorem consecPairs_mem {α : Type} :
    ∀ {l : List α} {pq : α × α}, pq ∈ consecPairs l → pq.1 ∈ l ∧ pq.2 ∈ l := by
  intro l
  induction l with
  | nil => intro pq h; simp [consecPairs] at h
  | cons a t ih =>
      intro pq h
      cases t with
      | nil => simp [consecPairs] at h
      | cons b rest =>
          rw [consecPairs] at h
          rcases List.mem_cons.mp h with he | hm
          · rw [he]
            exact ⟨List.mem_cons_self _ _, List.mem_cons_of_mem _ (List.mem_cons_self _ _)⟩
          · have := ih hm
            exact ⟨List.mem_cons_of_mem _ this.1, List.mem_cons_of_mem _ this.2⟩

theorem consecPairs_pairwise {α : Type} {R : α → α → Prop} :
    ∀ {l : List α}, l.Pairwise R →
      (consecPairs l).Pairwise (fun p q => R p.2 q.1 ∨ p.2 = q.1) := by
  intro l
  induction l with
  | nil => intro _; simp [consecPairs]
  | cons a t ih =>
      intro h
      cases t with
      | nil => simp [consecPairs]
      | cons b rest =>
          rw [consecPairs]
          have htail : (b :: rest).Pairwise R := h.of_cons
          refine List.Pairwise.cons ?_ (ih htail)
          intro q hq
          have hq1 := (consecPairs_mem hq).1
          rcases List.mem_cons.mp hq1 with he | hm
          · exact Or.inr he.symm
          · exact Or.inl (List.rel_of_pairwise_cons htail hm)

theorem downRange_mem {i hi lo : Nat} (h : i ∈ downRange hi lo) :
    lo < i ∧ i ≤ hi := by
  unfold downRange at h
  rcases List.mem_map.mp h with ⟨k, hk, rfl⟩
  rw [List.mem_range] at hk
  omega

theorem find_title_header_bounds {elements : List DocumentElement}
    {before_idx after_idx : Nat} {tp : String × Nat}
    (h : find_title_header elements before_idx after_idx = some tp) :
    after_idx < tp.2 ∧ tp.2 ≤ before_idx ∧ tp.2 < elements.length := by
  unfold find_title_header at h
  rcases List.exists_of_findSome?_eq_some h with ⟨i, hmem, hf⟩
  have hb := downRange_mem hmem
  cases hel : elements[i]? with
  | none => rw [hel] at hf; cases hf
  | some el =>
      rw [hel] at hf
      have hf' : (if qualifies_title el then some (pyStrip el.text, i) else none)
          = some tp := hf
      by_cases hq : qualifies_title el
      · rw [if_pos hq] at hf'
        have htp := Option.some.inj hf'
        have hlen : i < elements.length := by
          rcases List.getElem?_eq_some.mp hel with ⟨hl, _⟩
          exact hl
        have hi2 : tp.2 = i := by rw [← htp]
        have hmax := le_max_left after_idx (before_idx - 10)
        rw [hi2]
        omega
      · rw [if_neg hq] at hf'
        cases hf'

theorem section_boundaries_bounds {elements : List DocumentElement}
    {b : String × Nat}
    (hb : b ∈ section_boundaries elements (numbered_headers elements)) :
    1 ≤ b.2 ∧ b.2 < elements.length := by
  unfold section_boundaries at hb
  rcases List.mem_filterMap.mp hb with ⟨pq, _, hf⟩
  by_cases hr : restart_candidate pq.1.2 pq.2.2
  · rw [if_pos hr] at hf
    have hbounds := find_title_header_bounds hf
    omega
  · rw [if_neg hr] at hf
    cases hf

theorem section_boundaries_pairwise (elements : List DocumentElement) :
    (section_boundaries elements (numbered_headers elements)).Pairwise
      (fun b b' => b.2 < b'.2) := by
  have hcp : (consecPairs (numbered_headers elements)).Pairwise
      (fun p q => p.2.1 ≤ q.1.1) := by
    refine (consecPairs_pairwise (numbered_headers_pairwise elements)).imp ?_
    intro p q hpq
    rcases hpq with h | h
    · omega
    · rw [h]
  unfold section_boundaries
  refine List.Pairwise.filterMap _ ?_ hcp
  intro p q hpq b hb b' hb'
  by_cases hr : restart_candidate p.1.2 p.2.2
  · rw [if_pos hr] at hb
    by_cases hr' : restart_candidate q.1.2 q.2.2
    · rw [if_pos hr'] at hb'
      have h1 := find_title_header_bounds (Option.mem_def.mp hb)
      have h2 := find_title_header_bounds (Option.mem_def.mp hb')
      omega
    · rw [if_neg hr'] at hb'
      cases hb'
  · rw [if_neg hr] at hb
    cases hb

theorem tail_sections_flatten (elements : List DocumentElement) :
    ∀ (rest : List (String × Nat)) (title : String) (start_idx : Nat) (k : Nat),
      List.Chain' (fun b b' : String × Nat => b.2 < b'.2) ((title, start_idx) :: rest) →
      (∀ b ∈ (title, start_idx) :: rest, b.2 < elements.length) →
      ((tail_sections elements ((title, start_idx) :: rest) k).map
        (fun s => s.elements)).flatten = elements.drop start_idx := by
  intro rest
  induction rest with
  | nil =>
      intro title start_idx k _ _
      rw [tail_sections, tail_sections]
      simp only [List.map_cons, List.map_nil, List.flatten_cons, List.flatten_nil,
        List.append_nil, mkSection]
      rw [← List.length_drop start_idx elements, List.take_length]
  | cons b' rest' ih =>
      intro title start_idx k hch hbound
      obtain ⟨title', start'⟩ := b'
      rw [tail_sections]
      simp only [List.map_cons, List.flatten_cons, mkSection]
      have hch' := (List.chain'_cons.mp hch).2
      have hlt : start_idx < start' := (List.chain'_cons.mp hch).1
      rw [ih title' start' (k + 1) hch'
        (fun b hb => hbound b (List.mem_cons_of_mem _ hb))]
      conv_rhs => rw [← List.take_append_drop (start' - start_idx) (elements.drop start_idx)]
      rw [List.drop_drop]
      have harith : start_idx + (start' - start_idx) = start' := by omega
      rw [harith]

theorem tail_sections_nonempty (elements : List DocumentElement) :
    ∀ (rest : List (String × Nat)) (title : String) (start_idx : Nat) (k : Nat),
      List.Chain' (fun b b' : String × Nat => b.2 < b'.2) ((title, start_idx) :: rest) →
      (∀ b ∈ (title, start_idx) :: rest, b.2 < elements.length) →
      ∀ s ∈ tail_sections elements ((title, start_idx) :: rest) k,
        s.elements ≠ [] := by
  intro rest
  induction rest with
  | nil =>
      intro title start_idx k _ hbound s hs
      rw [tail_sections] at hs
      rcases List.mem_cons.mp hs with he | hm
      · rw [he]
        have hstart : start_idx < elements.length :=
          hbound (title, start_idx) (List.mem_cons_self _ _)
        simp only [mkSection]
        intro hcon
        have := congrArg List.length hcon
        simp only [List.length_take, List.length_drop, List.length_nil] at this
        omega
      · rw [tail_sections] at hm
        cases hm
  | cons b' rest' ih =>
      intro title start_idx k hch hbound s hs
      obtain ⟨title', start'⟩ := b'
      rw [tail_sections] at hs
      rcases List.mem_cons.mp hs with he | hm
      · rw [he]
        have hlt : start_idx < start' := (List.chain'_cons.mp hch).1
        have hstart : start_idx < elements.length :=
          hbound (title, start_idx) (List.mem_cons_self _ _)
        simp only [mkSection]
        intro hcon
        have := congrArg List.length hcon
        simp only [List.length_take, List.length_drop, List.length_nil] at this
        omega
      · exact ih title' start' (k + 1) (List.chain'_cons.mp hch).2
          (fun b hb => hbound b (List.mem_cons_of_mem _ hb)) s hm

theorem tail_sections_indexes (elements : List DocumentElement) :
    ∀ (bs : List (String × Nat)) (k : Nat),
      (tail_sections elements bs k).map (fun s => s.index)
        = List.range' k bs.length := by
  intro bs
  induction bs with
  | nil => intro k; rw [tail_sections]; simp
  | cons b rest ih =>
      intro k
      obtain ⟨title, start⟩ := b
      cases rest with
      | nil =>
          rw [tail_sections]
          simp only [List.map_cons, mkSection, List.length_cons, List.range'_succ]
          rw [ih (k + 1)]
      | cons b' rest' =>
          rw [tail_sections]
          simp only [List.map_cons, mkSection, List.length_cons, List.range'_succ]
          rw [ih (k + 1), List.length_cons, List.range'_succ]

theorem startsOf_chain :
    ∀ (l : List SectionData), (∀ s ∈ l, s.elements ≠ []) →
      ∀ acc, List.Chain' (fun a b : Nat => a < b) (startsOf acc l) := by
  intro l
  induction l with
  | nil => intro _ acc; rw [startsOf]; simp
  | cons s rest ih =>
      intro h acc
      rw [startsOf, List.chain'_cons']
      refine ⟨?_, ih (fun x hx => h x (List.mem_cons_of_mem _ hx)) _⟩
      intro y hy
      cases rest with
      | nil => rw [startsOf] at hy; cases hy
      | cons s' rest' =>
          rw [startsOf] at hy
          simp only [List.head?_cons, Option.mem_def, Option.some.injEq] at hy
          have hpos : 0 < s.elements.length :=
            List.length_pos.mpr (h s (List.mem_cons_self _ _))
          omega

/-- `discover_sections` when no boundary is accepted: one catch-all section. -/
theorem discover_sections_of_boundaries_nil (elements : List DocumentElement)
    (hne : elements ≠ [])
    (hbs : section_boundaries elements (numbered_headers elements) = []) :
    discover_sections elements = [mkSection "Main Clauses" 0 elements] := by
  unfold discover_sections
  rw [if_neg (by rw [List.isEmpty_iff]; exact hne), hbs]

/-- `discover_sections` when boundaries were accepted: the lead block (never
empty, since every boundary index is at least 1) followed by the boundary
sections. -/
theorem discover_sections_of_boundaries_cons (elements : List DocumentElement)
    (hne : elements ≠ []) (t0 : String) (fb : Nat) (rest : List (String × Nat))
    (hbs : section_boundaries elements (numbered_headers elements) = (t0, fb) :: rest)
    (hbody : elements.take fb ≠ []) :
    discover_sections elements
      = mkSection "Main Clauses" 0 (elements.take fb)
        :: tail_sections elements ((t0, fb) :: rest) 1 := by
  unfold discover_sections
  rw [if_neg (by rw [List.isEmpty_iff]; exact hne), hbs]
  show (if (elements.take fb).isEmpty then []
      else [mkSection "Main Clauses" 0 (elements.take fb)])
    ++ tail_sections elements ((t0, fb) :: rest) 1
    = mkSection "Main Clauses" 0 (elements.take fb)
      :: tail_sections elements ((t0, fb) :: rest) 1
  rw [if_neg (by rw [List.isEmpty_iff]; exact hbody), List.singleton_append]

/-- C2: for every non-empty element list, the sections that
`discover_sections` returns partition the element list without gaps or
overlaps (their element blocks concatenate back to the input), every section
is non-empty — hence the section start positions are strictly increasing
element indices (fourth conjunct) — the `index` fields are exactly
`0, 1, 2, …` in order, and the head section is always present as the lead
section with index 0 and the default "Main Clauses" title.  (The first
accepted boundary always lies at element position ≥ 1, because a boundary's
title header sits strictly after the previous numbered header, so the lead
block is never empty.) -/
theorem discover_sections_partition (elements : List DocumentElement)
    (hne : elements ≠ []) :
    ((discover_sections elements).map (fun s => s.elements)).flatten = elements
    ∧ (∀ s ∈ discover_sections elements, s.elements ≠ [])
    ∧ (discover_sections elements).map (fun s => s.index)
        = List.range (discover_sections elements).length
    ∧ List.Chain' (fun a b : Nat => a < b) (startsOf 0 (discover_sections elements))
    ∧ ∃ s₀ rest, discover_sections elements = s₀ :: rest
        ∧ s₀.index = 0 ∧ s₀.title = "Main Clauses" := by
  have hlenpos : 0 < elements.length := List.length_pos.mpr hne
  cases hbs : section_boundaries elements (numbered_headers elements) with
  | nil =>
      rw [discover_sections_of_boundaries_nil elements hne hbs]
      refine ⟨by simp [mkSection], ?_, by simp [mkSection, List.range_succ], ?_, ?_⟩
      · intro s hs
        rcases List.mem_cons.mp hs with he | hm
        · rw [he]; exact hne
        · cases hm
      · rw [startsOf, startsOf]
        simp
      · exact ⟨_, [], rfl, rfl, rfl⟩
  | cons b0 rest =>
      obtain ⟨t0, fb⟩ := b0
      have hbounds : ∀ b ∈ (t0, fb) :: rest, 1 ≤ b.2 ∧ b.2 < elements.length := by
        intro b hb
        refine section_boundaries_bounds ?_
        rw [hbs]
        exact hb
      have hpair : ((t0, fb) :: rest).Pairwise (fun b b' : String × Nat => b.2 < b'.2) := by
        rw [← hbs]
        exact section_boundaries_pairwise elements
      have hch := hpair.chain'
      have hfb1 : 1 ≤ fb := (hbounds _ (List.mem_cons_self _ _)).1
      have hbody : elements.take fb ≠ [] := by
        intro hcon
        have := congrArg List.length hcon
        simp only [List.length_take, List.length_nil] at this
        omega
      rw [discover_sections_of_boundaries_cons elements hne t0 fb rest hbs hbody]
      have hflat := tail_sections_flatten elements rest t0 fb 1 hch
        (fun b hb => (hbounds b hb).2)
      have hnonempty := tail_sections_nonempty elements rest t0 fb 1 hch
        (fun b hb => (hbounds b hb).2)
      refine ⟨?_, ?_, ?_, ?_, ?_⟩
      · simp only [List.map_cons, List.flatten_cons, mkSection]
        rw [hflat]
        exact List.take_append_drop fb elements
      · intro s hs
        rcases List.mem_cons.mp hs with he | hm
        · rw [he]
          simp only [mkSection]
          exact hbody
        · exact hnonempty s hm
      · simp only [List.map_cons, mkSection, List.length_cons]
        rw [tail_sections_indexes]
        have hlen : (tail_sections elements ((t0, fb) :: rest) 1).length
            = ((t0, fb) :: rest).length := by
          have := congrArg List.length (tail_sections_indexes elements ((t0, fb) :: rest) 1)
          simpa using this
        rw [hlen, List.range_eq_range']
        simp [List.range'_succ]
      · refine startsOf_chain _ ?_ 0
        intro s hs
        rcases List.mem_cons.mp hs with he | hm
        · rw [he]
          simp only [mkSection]
          exact hbody
        · exact hnonempty s hm
      · exact ⟨_, _, rfl, rfl, rfl⟩

/-- C2 witness: the partition evaluated on a concrete one-element document
(the conjunction instantiated by the theorem at that input). -/
theorem discover_sections_partition_witness :
    ((discover_sections [DocumentElement.mk "TEXT" "hello" 1 0 false]).map
        (fun s => s.elements)).flatten = [DocumentElement.mk "TEXT" "hello" 1 0 false]
    ∧ (∀ s ∈ discover_sections [DocumentElement.mk "TEXT" "hello" 1 0 false],
        s.elements ≠ [])
    ∧ (discover_sections [DocumentElement.mk "TEXT" "hello" 1 0 false]).map
        (fun s => s.index)
        = List.range (discover_sections [DocumentElement.mk "TEXT" "hello" 1 0 false]).length
    ∧ List.Chain' (fun a b : Nat => a < b)
        (startsOf 0 (discover_sections [DocumentElement.mk "TEXT" "hello" 1 0 false]))
    ∧ ∃ s₀ rest,
        discover_sections [DocumentElement.mk "TEXT" "hello" 1 0 false] = s₀ :: rest
        ∧ s₀.index = 0 ∧ s₀.title = "Main Clauses" :=
  discover_sections_partition [DocumentElement.mk "TEXT" "hello" 1 0 false] (by decide)

end CharterParser
